import Mathlib

/-!
Verification of the LIF neuron core (`snntorch/_neurons/lif.py`).

Shallow embedding conventions:
* tensor element values are rationals (`ℚ`), standing for the real-valued
  float entries; elementwise torch operations become `List.map` / `List.zipWith`;
* 2-D tensors of shape `(batch, units)` are `List (List ℚ)` (row-major);
* the heap of live tensors is modelled by `Store`, a list of `Tensor` values
  indexed by natural-number addresses; `torch.zeros_like` and every operation
  returning a fresh tensor allocate at the end of the heap;
* Python exceptions become `Except String`; mutation of the class-level
  registry `LIF.instances` is explicit state passing.
-/

namespace SnnTorch

/-- Model of a torch tensor: row-major 2-D data (a 1-D tensor is a single row)
together with its `requires_grad` flag. The shape is carried by the nesting of
the lists. -/
structure Tensor where
  data : List (List ℚ)
  requiresGrad : Bool
deriving Repr, DecidableEq

/-- Two tensors have the same shape: same number of rows and equal row lengths. -/
def Tensor.sameShape (t u : Tensor) : Prop :=
  t.data.length = u.data.length ∧
    ∀ i, (t.data.getD i []).length = (u.data.getD i []).length

/-- A tensor is all zeros. -/
def Tensor.allZero (t : Tensor) : Prop :=
  ∀ row ∈ t.data, ∀ v ∈ row, v = 0

/-- torch.zeros_like: fresh tensor of the same shape, every entry 0, with the
given `requires_grad` flag. -/
def zerosLike (t : Tensor) (rg : Bool) : Tensor :=
  ⟨t.data.map (fun row => row.map (fun _ => (0 : ℚ))), rg⟩

/-- Scalar Heaviside as implemented: `(input_ > 0).float()` maps an entry `x`
to `1.0` when `x > 0` and to `0.0` otherwise (strict comparison). -/
def heavisideStep (x : ℚ) : ℚ := if 0 < x then 1 else 0

/-- LIF.Heaviside.forward: `out = (input_ > 0).float(); ctx.save_for_backward(out);
return out`. The first component is the tensor saved in `ctx`, the second the
returned output (they are the same tensor). -/
def heavisideForward (input_ : List ℚ) : List ℚ × List ℚ :=
  let out := input_.map heavisideStep
  (out, out)

/-- LIF.Heaviside.backward: `(out,) = ctx.saved_tensors; grad = grad_output * out`.
Elementwise product of the upstream gradient with the cached forward output. -/
def heavisideBackward (savedOut grad_output : List ℚ) : List ℚ :=
  List.zipWith (fun g o => g * o) grad_output savedOut

/-- One registered LIF neuron instance: the attributes `__init__` sets on
`self` before the reset-mechanism validation runs. The default `spike_grad`
(Heaviside) is embedded separately as `heavisideForward` / `heavisideBackward`
and is not a field. -/
structure LIFNeuron where
  init_hidden : Bool
  inhibition : Bool
  reset_mechanism : String
  output : Bool
  beta : Tensor
  threshold : Tensor
deriving Repr, DecidableEq

namespace LIF

/-- nn.Parameter wrapping: the tensor becomes a learnable parameter, which
turns gradient tracking on; `register_buffer` stores it unchanged. -/
def asParameter (t : Tensor) : Tensor := ⟨t.data, true⟩

/-- LIF.__init__ with the class-level registry `LIF.instances` passed and
returned explicitly. Faithful ordering: `LIF.instances.append(self)` runs
first, then the attributes are set on `self` (beta/threshold wrapped by
`nn.Parameter` when the corresponding learn flag is set), and only at the end
is `reset_mechanism` validated; an invalid value raises ValueError, at which
point the new instance is already in the registry. -/
def construct (instances : List LIFNeuron) (beta : Tensor)
    (threshold : Tensor) (init_hidden inhibition learn_beta learn_threshold : Bool)
    (reset_mechanism : String) (output : Bool) :
    List LIFNeuron × Except String LIFNeuron :=
  let self : LIFNeuron :=
    { init_hidden := init_hidden
      inhibition := inhibition
      reset_mechanism := reset_mechanism
      output := output
      beta := if learn_beta then asParameter beta else beta
      threshold := if learn_threshold then asParameter threshold else threshold }
  let registered := instances ++ [self]
  if reset_mechanism ≠ "subtract" ∧ reset_mechanism ≠ "zero" then
    (registered,
      Except.error "reset_mechanism must be set to either subtract or zero.")
  else
    (registered, Except.ok self)

/-- LIF.init (classmethod): `cls.instances = []` discards the whole registry. -/
def init (_instances : List LIFNeuron) : List LIFNeuron := []

end LIF

/-- The arguments of one `LIF.__init__` call (spike_grad omitted: the claims
use the default surrogate). -/
structure ConstructArgs where
  beta : Tensor
  threshold : Tensor
  init_hidden : Bool
  inhibition : Bool
  learn_beta : Bool
  learn_threshold : Bool
  reset_mechanism : String
  output : Bool
deriving Repr, DecidableEq

/-- The instance record `__init__` builds and appends for these arguments. -/
def neuronOf (p : ConstructArgs) : LIFNeuron :=
  { init_hidden := p.init_hidden
    inhibition := p.inhibition
    reset_mechanism := p.reset_mechanism
    output := p.output
    beta := if p.learn_beta then LIF.asParameter p.beta else p.beta
    threshold :=
      if p.learn_threshold then LIF.asParameter p.threshold else p.threshold }

/-- Run `LIF.__init__` once per argument tuple, threading the registry. -/
def constructMany (ps : List ConstructArgs) : List LIFNeuron :=
  ps.foldl
    (fun reg p =>
      (LIF.construct reg p.beta p.threshold p.init_hidden p.inhibition
          p.learn_beta p.learn_threshold p.reset_mechanism p.output).1)
    []

/-- The heap of live tensors: the address of a tensor is its index. Fresh
tensors (`torch.zeros_like`, operation results) are allocated at the end. -/
structure Store where
  heap : List Tensor
deriving Repr, DecidableEq

/-- Allocate a fresh tensor, returning the new store and the fresh address. -/
def Store.alloc (s : Store) (t : Tensor) : Store × Nat :=
  (⟨s.heap ++ [t]⟩, s.heap.length)

/-- Read the tensor at an address. -/
def Store.get (s : Store) (a : Nat) : Tensor := s.heap.getD a ⟨[], false⟩

/-- Overwrite the tensor at an address (models in-place tensor mutation). -/
def Store.put (s : Store) (a : Nat) (t : Tensor) : Store := ⟨s.heap.set a t⟩

namespace LIF

/-- LIF.zeros: `for state in args: state = torch.zeros_like(state)`.
`torch.zeros_like` allocates a fresh tensor and the assignment rebinds the
local loop variable only; nothing is ever written back into the caller's
tensors. -/
def zeros (s : Store) (args : List Nat) : Store :=
  args.foldl (fun s a => (s.alloc (zerosLike (s.get a) false)).1) s

end LIF

/-- Result of `_SpikeTorchConv`: a single unwrapped tensor when exactly one
state was produced, otherwise the ordered list of states. -/
inductive ConvOut where
  | single (a : Nat)
  | multiple (as : List Nat)
deriving Repr, DecidableEq

/-- The loop of `_SpikeTorchConv`: for each supplied state, `torch.Tensor(arg)`
rewraps it (washing away the _SpikeTensor class; no observable effect here
since the value is immediately discarded) and the loop variable is rebound to
`torch.zeros_like(input_, requires_grad=True)`, a fresh allocation, whose
address is appended to `states`. -/
def convLoop (inputAddr : Nat) : Store → List Nat → Store × List Nat
  | s, [] => (s, [])
  | s, _arg :: rest =>
    let alloc1 := s.alloc (zerosLike (s.get inputAddr) true)
    let recres := convLoop inputAddr alloc1.1 rest
    (recres.1, alloc1.2 :: recres.2)

/-- _SpikeTorchConv: the guard `len(args) == 1 and type(args) is not tuple` is
dead code (`args` is always a tuple), so the function runs the loop over all
supplied states and unwraps the result exactly when one state was produced. -/
def spikeTorchConv (s : Store) (args : List Nat) (inputAddr : Nat) :
    Store × ConvOut :=
  let run := convLoop inputAddr s args
  if run.2.length = 1 then (run.1, ConvOut.single (run.2.getD 0 0))
  else (run.1, ConvOut.multiple run.2)

/-- Maximum entry of a list (used to specify `torch.argmax`). -/
def listMax : List ℚ → ℚ
  | [] => 0
  | [x] => x
  | x :: y :: xs => max x (listMax (y :: xs))

/-- torch.argmax along the unit dimension, one row at a time: the index of the
first occurrence of the maximum (the tie-breaking convention PyTorch
documents). torch raises on an empty row; the model returns 0 there. -/
def argmaxIdx : List ℚ → Nat
  | [] => 0
  | x :: xs =>
    if xs = [] then 0
    else if listMax xs ≤ x then 0 else argmaxIdx xs + 1

/-- In-place 2-D tensor indexing `m[i][j] = v` on a row-major matrix;
out-of-range indices leave the matrix unchanged, as `List.set` does. -/
def setEntry (m : List (List ℚ)) (i j : Nat) (v : ℚ) : List (List ℚ) :=
  m.set i ((m.getD i []).set j v)

namespace LIF

/-- LIF.fire (value level): `mem_shift = mem - self.threshold;
spk = self.spike_grad(mem_shift)` with the default
`spike_grad = Heaviside.apply`. -/
def fire (threshold : ℚ) (mem : List ℚ) : List ℚ :=
  (heavisideForward (mem.map (fun v => v - threshold))).2

/-- LIF.fire_inhibition on a `(batch, units)` membrane:
`mem_shift = mem - self.threshold; index = torch.argmax(mem_shift, dim=1);
spk_tmp = self.spike_grad(mem_shift); mask_spk1 = torch.zeros_like(spk_tmp);
mask_spk1[torch.arange(batch_size), index] = 1; spk = spk_tmp * mask_spk1`.
The scatter assignment writes a 1 at `(i, index[i])` for each
`i < batch_size`, mutating the freshly allocated mask in place. -/
def fire_inhibition (threshold : ℚ) (batch_size : Nat)
    (mem : List (List ℚ)) : List (List ℚ) :=
  let memShift := mem.map (fun row => row.map (fun v => v - threshold))
  let index := memShift.map argmaxIdx
  let spkTmp := memShift.map (fun row => (heavisideForward row).2)
  let maskSpk1 := (List.range batch_size).foldl
    (fun mk i => setEntry mk i (index.getD i 0) 1)
    (spkTmp.map (fun row => row.map (fun _ => (0 : ℚ))))
  List.zipWith (fun trow mrow => List.zipWith (fun a b => a * b) trow mrow)
    spkTmp maskSpk1

end LIF

/-- A tensor in the autodiff graph: its values together with its reverse-mode
pullback, mapping an upstream gradient (shaped like the values) to the
gradient with respect to the root membrane tensor the graph was built from. -/
structure ADTensor where
  vals : List ℚ
  pullback : List ℚ → List ℚ

/-- A root (leaf) tensor: backpropagation reaches it with the upstream
gradient unchanged. -/
def ADTensor.root (vals : List ℚ) : ADTensor := ⟨vals, fun g => g⟩

/-- Elementwise subtraction of a scalar: the values shift and, since the
derivative of `v - c` in `v` is 1, the pullback is unchanged. -/
def ADTensor.subConst (t : ADTensor) (c : ℚ) : ADTensor :=
  ⟨t.vals.map (fun v => v - c), t.pullback⟩

/-- LIF.Heaviside.apply in the graph: forward computes the step values and
caches them; the registered backward multiplies the upstream gradient by the
cached output (`heavisideBackward`) before passing it on. -/
def ADTensor.heavisideApply (t : ADTensor) : ADTensor :=
  ⟨(heavisideForward t.vals).2,
    fun g => t.pullback (heavisideBackward (heavisideForward t.vals).1 g)⟩

namespace LIF

/-- LIF.fire as an autodiff computation:
`spk = self.spike_grad(mem - self.threshold)`, differentiable back to `mem`. -/
def fireAD (threshold : ℚ) (mem : List ℚ) : ADTensor :=
  ((ADTensor.root mem).subConst threshold).heavisideApply

/-- LIF.mem_reset: `reset = self.spike_grad(mem - self.threshold).clone().detach()`.
Same computation as `fire`, then the clone is removed from the differentiation
graph: backpropagating any upstream gradient through it contributes the zero
gradient to the root membrane. -/
def mem_reset (threshold : ℚ) (mem : List ℚ) : ADTensor :=
  let r := ((ADTensor.root mem).subConst threshold).heavisideApply
  ⟨r.vals, fun _ => List.replicate mem.length 0⟩

end LIF

/-- The per-instance state a neuron-level call can see: the decay and
threshold parameters and the class-wide registry. The threshold enters the
arithmetic as its scalar value. -/
structure LIFState where
  beta : Tensor
  threshold : ℚ
  instances : List LIFNeuron
deriving Repr, DecidableEq

namespace LIF

/-- LIF.fire over the tensor heap: reads `mem`, allocates the fresh spike
tensor `spike_grad(mem - threshold)`; assigns to none of `self`'s fields, the
registry, or any existing heap cell. -/
def fireS (st : Store) (p : LIFState) (memAddr : Nat) :
    Store × LIFState × Nat :=
  let mem := st.get memAddr
  let spk : Tensor :=
    ⟨mem.data.map (fun row =>
        (heavisideForward (row.map (fun v => v - p.threshold))).2),
      mem.requiresGrad⟩
  let res := st.alloc spk
  (res.1, p, res.2)

/-- LIF.mem_reset over the tensor heap: as `fireS`, but the returned clone is
detached (`requires_grad` off). -/
def memResetS (st : Store) (p : LIFState) (memAddr : Nat) :
    Store × LIFState × Nat :=
  let mem := st.get memAddr
  let reset : Tensor :=
    ⟨mem.data.map (fun row =>
        (heavisideForward (row.map (fun v => v - p.threshold))).2),
      false⟩
  let res := st.alloc reset
  (res.1, p, res.2)

/-- LIF.fire_inhibition over the tensor heap: reads `mem`, allocates the
winner-take-all spike tensor. The in-place scatter into `mask_spk1` mutates a
tensor freshly allocated inside the call, never an existing heap cell. -/
def fireInhibitionS (st : Store) (p : LIFState) (batch_size : Nat)
    (memAddr : Nat) : Store × LIFState × Nat :=
  let mem := st.get memAddr
  let spk : Tensor :=
    ⟨fire_inhibition p.threshold batch_size mem.data, mem.requiresGrad⟩
  let res := st.alloc spk
  (res.1, p, res.2)

end LIF

/-- A concrete 1x1 tensor used by concrete instances. -/
def tensorOne : Tensor := ⟨[[1]], false⟩

/-- A concrete 2x2 reference tensor used by concrete instances. -/
def tensorRef : Tensor := ⟨[[1, 2], [3, 4]], false⟩

end SnnTorch

namespace SnnTorch

/-- Helper: `getD` of a `zipWith` at a valid index, for arbitrary defaults. -/
theorem getD_zipWith_of_lt {α β γ : Type} (f : α → β → γ) (as : List α)
    (bs : List β) (i : Nat) (d : γ) (da : α) (db : β)
    (ha : i < as.length) (hb : i < bs.length) :
    (List.zipWith f as bs).getD i d = f (as.getD i da) (bs.getD i db) := by
  induction as generalizing bs i with
  | nil => simp at ha
  | cons a as ih =>
    cases bs with
    | nil => simp at hb
    | cons b bs =>
      cases i with
      | zero => rfl
      | succ n =>
          simpa using ih bs n (by simpa using ha) (by simpa using hb)

/-- Helper: `getD` of a `map` at a valid index, for arbitrary defaults. -/
theorem getD_map_of_lt {α β : Type} (f : α → β) (l : List α) (i : Nat)
    (d : β) (da : α) (h : i < l.length) :
    (l.map f).getD i d = f (l.getD i da) := by
  rw [List.getD_eq_getElem _ _ (by simpa using h), List.getD_eq_getElem _ _ h]
  simp

/-- C1. The claim says the forward pass returns 1.0 where `x ≥ 0`, classifying
`x = 0` as firing, so that `step([-1.0, 0.0, 0.5]) = [0.0, 1.0, 1.0]`; the code
(`input_ > 0`) is strict, so at the input `0.0` it returns `0.0`: on
`[-1.0, 0.0, 0.5]` the code yields `[0.0, 0.0, 1.0]`, contradicting the
Heaviside docstring (`S = 1` if `U ≥ U_thr`). -/
theorem C1_heaviside_forward_strict_at_zero :
    (heavisideForward [(-1 : ℚ), 0, 1/2]).2 = [0, 0, 1] ∧
      (heavisideForward [(-1 : ℚ), 0, 1/2]).2 ≠ [0, 1, 1] ∧
      heavisideStep 0 = 0 := by
  refine ⟨?_, ?_, ?_⟩ <;> norm_num [heavisideForward, heavisideStep]

/-- C5. The backward rule returns exactly `grad_output * out` element-wise;
composed with the forward pass, the upstream gradient passes through unchanged
where the forward output was 1 (input strictly above 0) and is zeroed where it
was 0; concretely, cached output `[0,1,1]` with upstream gradient `[3,4,5]`
yields `[0,4,5]`. -/
theorem C5_heaviside_backward_gating :
    (∀ o g : List ℚ, ∀ i, i < o.length → i < g.length →
        (heavisideBackward o g).getD i 0 = g.getD i 0 * o.getD i 0) ∧
    (∀ x g : List ℚ, ∀ i, i < x.length → i < g.length →
        (heavisideBackward (heavisideForward x).1 g).getD i 0 =
          if 0 < x.getD i 0 then g.getD i 0 else 0) ∧
    heavisideBackward [(0 : ℚ), 1, 1] [(3 : ℚ), 4, 5] = [0, 4, 5] := by
  refine ⟨?_, ?_, ?_⟩
  · intro o g i ho hg
    exact getD_zipWith_of_lt _ g o i 0 0 0 hg ho
  · intro x g i hx hg
    have h1 : (heavisideForward x).1.length = x.length := by
      simp [heavisideForward]
    unfold heavisideBackward
    rw [getD_zipWith_of_lt _ g (heavisideForward x).1 i 0 0 0 hg (h1 ▸ hx)]
    have h2 : (heavisideForward x).1.getD i 0 = heavisideStep (x.getD i 0) := by
      simpa [heavisideForward] using
        getD_map_of_lt heavisideStep x i 0 0 hx
    rw [h2, heavisideStep]
    split <;> simp
  · norm_num [heavisideBackward]

/-- Witness for C5: the first conjunct applied at the cached output `[0,1,1]`,
upstream gradient `[3,4,5]`, index 1. -/
theorem C5_heaviside_backward_gating_witness :
    (heavisideBackward [(0 : ℚ), 1, 1] [(3 : ℚ), 4, 5]).getD 1 0 =
      ([(3 : ℚ), 4, 5]).getD 1 0 * ([(0 : ℚ), 1, 1]).getD 1 0 :=
  C5_heaviside_backward_gating.1 [0, 1, 1] [3, 4, 5] 1 (by norm_num)
    (by norm_num)

/-- Helper: `__init__` always appends exactly the new instance to the
registry, whether or not the validation that follows raises. -/
theorem construct_fst (reg : List LIFNeuron) (p : ConstructArgs) :
    (LIF.construct reg p.beta p.threshold p.init_hidden p.inhibition
        p.learn_beta p.learn_threshold p.reset_mechanism p.output).1
      = reg ++ [neuronOf p] := by
  unfold LIF.construct neuronOf
  dsimp only
  split <;> rfl

/-- Helper: folding constructions over a list of argument tuples appends the
corresponding instances in order. -/
theorem constructMany_go (ps : List ConstructArgs) :
    ∀ acc : List LIFNeuron,
      ps.foldl
        (fun reg p =>
          (LIF.construct reg p.beta p.threshold p.init_hidden p.inhibition
              p.learn_beta p.learn_threshold p.reset_mechanism p.output).1)
        acc = acc ++ ps.map neuronOf := by
  induction ps with
  | nil => intro acc; simp
  | cons p ps ih =>
      intro acc
      rw [List.foldl_cons, construct_fst, ih]
      simp

/-- C2 counterexample: constructing with `reset_mechanism = "invalid"` from
the empty registry does fail with the configuration ValueError, but the
registry is NOT left unchanged — the partially-constructed instance has
already been appended, so the claimed conjunction is false at this input. -/
theorem C2_counterexample_registry_grows :
    (LIF.construct [] tensorOne tensorOne false false false false "invalid"
          false).2
        = Except.error
            "reset_mechanism must be set to either subtract or zero." ∧
      (LIF.construct [] tensorOne tensorOne false false false false "invalid"
          false).1 ≠ [] := by
  constructor
  · rfl
  · simp [LIF.construct]

/-- C2 amended: for every construction with `reset_mechanism` outside
subtract/zero, construction fails with the configuration ValueError, and
the registry gains exactly one entry — the partially-constructed instance,
appended before validation runs. -/
theorem C2_invalid_reset_raises_after_registering
    (instances : List LIFNeuron) (beta threshold : Tensor)
    (ihid inhib lb ltf : Bool) (rm : String) (outf : Bool)
    (h1 : rm ≠ "subtract") (h2 : rm ≠ "zero") :
    (LIF.construct instances beta threshold ihid inhib lb ltf rm outf).2
        = Except.error
            "reset_mechanism must be set to either subtract or zero." ∧
      (LIF.construct instances beta threshold ihid inhib lb ltf rm outf).1
        = instances ++
            [⟨ihid, inhib, rm, outf,
              if lb then LIF.asParameter beta else beta,
              if ltf then LIF.asParameter threshold else threshold⟩] := by
  unfold LIF.construct
  simp [h1, h2]

/-- Witness for C2's amended theorem at `reset_mechanism = "invalid"`. -/
theorem C2_invalid_reset_raises_after_registering_witness :
    (LIF.construct [] tensorOne tensorOne false false false false "invalid"
          false).2
        = Except.error
            "reset_mechanism must be set to either subtract or zero." ∧
      (LIF.construct [] tensorOne tensorOne false false false false "invalid"
          false).1
        = [] ++
            [⟨false, false, "invalid", false,
              if false then LIF.asParameter tensorOne else tensorOne,
              if false then LIF.asParameter tensorOne else tensorOne⟩] :=
  C2_invalid_reset_raises_after_registering [] tensorOne tensorOne false false
    false false "invalid" false (by decide) (by decide)

/-- C8. Starting from the empty registry, constructing N neurons populates
the registry with exactly the N instances in construction order; each single
construction appends exactly its own instance and nothing else; and the clear
operation `LIF.init` empties the registry regardless of its size. -/
theorem C8_registry_lifecycle :
    (∀ ps : List ConstructArgs,
        constructMany ps = ps.map neuronOf ∧
          (constructMany ps).length = ps.length) ∧
      (∀ (reg : List LIFNeuron) (p : ConstructArgs),
          (LIF.construct reg p.beta p.threshold p.init_hidden p.inhibition
              p.learn_beta p.learn_threshold p.reset_mechanism p.output).1
            = reg ++ [neuronOf p]) ∧
      (∀ reg : List LIFNeuron, LIF.init reg = [] ∧ (LIF.init reg).length = 0) := by
  refine ⟨fun ps => ?_, fun reg p => construct_fst reg p, fun reg => ⟨rfl, rfl⟩⟩
  have h := constructMany_go ps []
  constructor
  · simpa [constructMany] using h
  · simp [constructMany, h]

/-- Helper: allocation leaves every existing heap cell unchanged. -/
theorem Store.get_alloc_of_lt (s : Store) (t : Tensor) (a : Nat)
    (h : a < s.heap.length) : (s.alloc t).1.get a = s.get a := by
  show (s.heap ++ [t]).getD a ⟨[], false⟩ = s.heap.getD a ⟨[], false⟩
  exact List.getD_append _ _ _ _ h

/-- Helper: allocation grows the heap by one cell. -/
theorem Store.length_alloc (s : Store) (t : Tensor) :
    (s.alloc t).1.heap.length = s.heap.length + 1 := by
  simp [Store.alloc]

/-- Helper: the freshly allocated cell holds the allocated tensor. -/
theorem Store.get_alloc_self (s : Store) (t : Tensor) :
    (s.alloc t).1.get s.heap.length = t := by
  show (s.heap ++ [t]).getD s.heap.length ⟨[], false⟩ = t
  rw [List.getD_append_right _ _ _ _ (le_refl _)]
  simp

/-- Helper: `LIF.zeros` only allocates fresh zero tensors, so every existing
heap cell keeps its value. -/
theorem zeros_frame (args : List Nat) :
    ∀ (s : Store) (a : Nat), a < s.heap.length →
      (LIF.zeros s args).get a = s.get a := by
  induction args with
  | nil => intro s a _; rfl
  | cons x xs ih =>
      intro s a h
      have step : LIF.zeros s (x :: xs)
          = LIF.zeros (s.alloc (zerosLike (s.get x) false)).1 xs := rfl
      rw [step, ih _ a (by rw [Store.length_alloc]; omega),
        Store.get_alloc_of_lt _ _ _ h]

/-- C3. The bulk zero utility never writes back into the caller's state:
after `LIF.zeros`, every tensor held at a pre-existing address — in
particular every input state tensor — holds exactly the values it held
before the call (the loop only rebinds a local variable to fresh
`zeros_like` allocations). -/
theorem C3_zeros_leaves_caller_state_unchanged (s : Store) (args : List Nat)
    (a : Nat) (h : a < s.heap.length) :
    (LIF.zeros s args).get a = s.get a :=
  zeros_frame args s a h

/-- Witness for C3: a one-tensor heap whose only tensor is passed to
`LIF.zeros` and is unchanged afterwards. -/
theorem C3_zeros_leaves_caller_state_unchanged_witness :
    (LIF.zeros ⟨[tensorOne]⟩ [0]).get 0 = (Store.mk [tensorOne]).get 0 :=
  C3_zeros_leaves_caller_state_unchanged ⟨[tensorOne]⟩ [0] 0 (by norm_num)

/-- Helper: unfolding equation for the `_SpikeTorchConv` loop on a cons. -/
theorem convLoop_cons (ia : Nat) (s : Store) (x : Nat) (xs : List Nat) :
    convLoop ia s (x :: xs)
      = ((convLoop ia (s.alloc (zerosLike (s.get ia) true)).1 xs).1,
         s.heap.length
           :: (convLoop ia (s.alloc (zerosLike (s.get ia) true)).1 xs).2) :=
  rfl

/-- Helper: the loop allocates one cell per supplied state. -/
theorem convLoop_heap_length (ia : Nat) (l : List Nat) :
    ∀ s : Store,
      (convLoop ia s l).1.heap.length = s.heap.length + l.length := by
  induction l with
  | nil => intro s; rfl
  | cons x xs ih =>
      intro s
      rw [convLoop_cons]
      dsimp only
      rw [ih, Store.length_alloc]
      simp
      omega

/-- Helper: the loop returns the consecutive fresh addresses, in order. -/
theorem convLoop_states (ia : Nat) (l : List Nat) :
    ∀ s : Store, (convLoop ia s l).2 = List.range' s.heap.length l.length := by
  induction l with
  | nil => intro s; rfl
  | cons x xs ih =>
      intro s
      rw [convLoop_cons]
      dsimp only
      rw [ih, Store.length_alloc, List.length_cons, List.range'_succ]

/-- Helper: the loop leaves every pre-existing heap cell unchanged. -/
theorem convLoop_frame (ia : Nat) (l : List Nat) :
    ∀ (s : Store) (a : Nat), a < s.heap.length →
      (convLoop ia s l).1.get a = s.get a := by
  induction l with
  | nil => intro s a _; rfl
  | cons x xs ih =>
      intro s a h
      rw [convLoop_cons]
      dsimp only
      rw [ih _ a (by rw [Store.length_alloc]; omega),
        Store.get_alloc_of_lt _ _ _ h]

/-- Helper: cell `s.heap.length + i` produced by the loop holds a fresh
`zeros_like` copy of the reference tensor with gradient tracking enabled. -/
theorem convLoop_get_fresh (ia : Nat) (l : List Nat) :
    ∀ s : Store, ia < s.heap.length → ∀ i, i < l.length →
      (convLoop ia s l).1.get (s.heap.length + i)
        = zerosLike (s.get ia) true := by
  induction l with
  | nil => intro s _ i hi; simp at hi
  | cons x xs ih =>
      intro s hia i hi
      rw [convLoop_cons]
      dsimp only
      cases i with
      | zero =>
          rw [Nat.add_zero,
            convLoop_frame ia xs _ _ (by rw [Store.length_alloc]; omega)]
          exact Store.get_alloc_self s _
      | succ n =>
          have hs1 : ia < (s.alloc (zerosLike (s.get ia) true)).1.heap.length := by
            rw [Store.length_alloc]; omega
          have hrec := ih _ hs1 n (by simpa using hi)
          rw [Store.length_alloc] at hrec
          have haddr : s.heap.length + (n + 1) = s.heap.length + 1 + n := by
            omega
          rw [haddr, hrec,
            Store.get_alloc_of_lt _ _ _ hia]

/-- Helper: `.1` of `spikeTorchConv` is the loop's final store. -/
theorem spikeTorchConv_fst (s : Store) (args : List Nat) (ia : Nat) :
    (spikeTorchConv s args ia).1 = (convLoop ia s args).1 := by
  unfold spikeTorchConv
  dsimp only
  split <;> rfl

/-- Helper: writing at one address never changes another address. -/
theorem Store.get_put_of_ne (s : Store) (a b : Nat) (t : Tensor)
    (h : a ≠ b) : (s.put a t).get b = s.get b := by
  show (s.heap.set a t).getD b ⟨[], false⟩ = s.heap.getD b ⟨[], false⟩
  rw [List.getD_eq_getD_get?, List.getD_eq_getD_get?]
  rw [List.get?_eq_getElem?, List.get?_eq_getElem?, List.getElem?_set_ne h]

/-- Helper: `zeros_like` output is all zeros. -/
theorem zerosLike_allZero (t : Tensor) (rg : Bool) :
    (zerosLike t rg).allZero := by
  intro row hrow v hv
  simp only [zerosLike, List.mem_map] at hrow
  obtain ⟨r, _, hr⟩ := hrow
  rw [← hr] at hv
  simp only [List.mem_map] at hv
  obtain ⟨a, _, ha⟩ := hv
  exact ha.symm

/-- Helper: `zeros_like` preserves the shape of the reference tensor. -/
theorem zerosLike_sameShape (t : Tensor) (rg : Bool) :
    (zerosLike t rg).sameShape t := by
  constructor
  · simp [zerosLike]
  · intro i
    show ((t.data.map (fun row => row.map (fun _ => (0 : ℚ)))).getD i []).length
        = (t.data.getD i []).length
    rcases Nat.lt_or_ge i t.data.length with hi | hi
    · rw [getD_map_of_lt _ _ _ _ [] hi]
      simp
    · rw [List.getD_eq_default _ _ (by simpa using hi),
        List.getD_eq_default _ _ hi]

/-- C7. For a non-empty list of states and a valid reference tensor,
`_SpikeTorchConv` allocates one fresh all-zero tensor per input state, each
shaped exactly like the reference with gradient tracking enabled; the
returned addresses are the consecutive fresh addresses in input order,
pairwise distinct and mutually non-aliasing (writing one leaves the others
unchanged); one state is returned unwrapped as `single`, several as the
ordered `multiple` list. -/
theorem C7_spikeTorchConv_materializes (s : Store) (args : List Nat)
    (ia : Nat) (_hargs : args ≠ []) (hia : ia < s.heap.length) :
    (convLoop ia s args).2 = List.range' s.heap.length args.length ∧
      (convLoop ia s args).2.Nodup ∧
      (∀ a ∈ (convLoop ia s args).2, s.heap.length ≤ a) ∧
      (∀ a ∈ (convLoop ia s args).2,
          (spikeTorchConv s args ia).1.get a = zerosLike (s.get ia) true ∧
            ((spikeTorchConv s args ia).1.get a).allZero ∧
            ((spikeTorchConv s args ia).1.get a).sameShape (s.get ia) ∧
            ((spikeTorchConv s args ia).1.get a).requiresGrad = true) ∧
      (∀ a ∈ (convLoop ia s args).2, ∀ b ∈ (convLoop ia s args).2, a ≠ b →
          ∀ t, (((spikeTorchConv s args ia).1.put a t)).get b
            = (spikeTorchConv s args ia).1.get b) ∧
      (args.length = 1 →
          (spikeTorchConv s args ia).2 = ConvOut.single s.heap.length) ∧
      (args.length ≠ 1 →
          (spikeTorchConv s args ia).2
            = ConvOut.multiple (convLoop ia s args).2) := by
  have hstates := convLoop_states ia args s
  have hmem : ∀ a ∈ (convLoop ia s args).2,
      s.heap.length ≤ a ∧ a < s.heap.length + args.length := by
    intro a ha
    rw [hstates] at ha
    exact List.mem_range'_1.mp ha
  have hget : ∀ a ∈ (convLoop ia s args).2,
      (spikeTorchConv s args ia).1.get a = zerosLike (s.get ia) true := by
    intro a ha
    obtain ⟨h1, h2⟩ := hmem a ha
    have := convLoop_get_fresh ia args s hia (a - s.heap.length) (by omega)
    rw [spikeTorchConv_fst]
    have haddr : s.heap.length + (a - s.heap.length) = a := by omega
    rwa [haddr] at this
  refine ⟨hstates, ?_, fun a ha => (hmem a ha).1, ?_, ?_, ?_, ?_⟩
  · rw [hstates]; exact List.nodup_range' _ _
  · intro a ha
    refine ⟨hget a ha, ?_, ?_, ?_⟩
    · rw [hget a ha]; exact zerosLike_allZero _ _
    · rw [hget a ha]; exact zerosLike_sameShape _ _
    · rw [hget a ha]; rfl
  · intro a _ b _ hab t
    exact Store.get_put_of_ne _ a b t hab
  · intro hlen
    unfold spikeTorchConv
    dsimp only
    rw [if_pos (by rw [hstates, List.length_range', hlen])]
    rw [hstates, hlen]
    rfl
  · intro hlen
    unfold spikeTorchConv
    dsimp only
    rw [if_neg (by rw [hstates, List.length_range']; exact hlen)]

/-- Witness for C7: the two-placeholder call against a 2x2 reference in a
one-tensor heap returns the two fresh addresses 1 and 2. -/
theorem C7_spikeTorchConv_materializes_witness :
    (convLoop 0 ⟨[tensorRef]⟩ [9, 9]).2
      = List.range' (Store.mk [tensorRef]).heap.length [9, 9].length :=
  (C7_spikeTorchConv_materializes ⟨[tensorRef]⟩ [9, 9] 0 (by simp)
      (by norm_num)).1

/-- Helper: the `_SpikeTorchConv` loop never reads the supplied states, so it
depends only on how many there are. -/
theorem convLoop_congr_length (ia : Nat) :
    ∀ (l1 l2 : List Nat), l1.length = l2.length →
      ∀ s : Store, convLoop ia s l1 = convLoop ia s l2 := by
  intro l1
  induction l1 with
  | nil =>
      intro l2 h s
      cases l2 with
      | nil => rfl
      | cons y ys => simp at h
  | cons x xs ih =>
      intro l2 h s
      cases l2 with
      | nil => simp at h
      | cons y ys =>
          rw [convLoop_cons, convLoop_cons, ih ys (by simpa using h)]

/-- C10. The result of `_SpikeTorchConv` depends only on the number of
supplied states and on the reference tensor: two calls on the same heap with
the same reference and equally many states (whatever tensors those states
name) return identical stores and outputs, and every returned tensor is the
all-zero tensor shaped like the reference — the input states' data is
discarded. -/
theorem C10_spikeTorchConv_ignores_state_values (s : Store)
    (args1 args2 : List Nat) (ia : Nat) (hlen : args1.length = args2.length)
    (hia : ia < s.heap.length) :
    spikeTorchConv s args1 ia = spikeTorchConv s args2 ia ∧
      (∀ a ∈ (convLoop ia s args1).2,
          (spikeTorchConv s args1 ia).1.get a = zerosLike (s.get ia) true) := by
  constructor
  · unfold spikeTorchConv
    rw [convLoop_congr_length ia args1 args2 hlen]
  · intro a ha
    rw [convLoop_states] at ha
    obtain ⟨h1, h2⟩ := List.mem_range'_1.mp ha
    have := convLoop_get_fresh ia args1 s hia (a - s.heap.length) (by omega)
    rw [spikeTorchConv_fst]
    have haddr : s.heap.length + (a - s.heap.length) = a := by omega
    rwa [haddr] at this

/-- Witness for C10: a call on state address 5 and a call on state address 0
coincide entirely. -/
theorem C10_spikeTorchConv_ignores_state_values_witness :
    spikeTorchConv ⟨[tensorRef]⟩ [5] 0 = spikeTorchConv ⟨[tensorRef]⟩ [0] 0 :=
  (C10_spikeTorchConv_ignores_state_values ⟨[tensorRef]⟩ [5] [0] 0 rfl
      (by norm_num)).1

/-- C6. `mem_reset` returns a tensor whose numeric values equal `fire`'s
output on the same membrane (the step function applied to mem − threshold),
but detached: backpropagating any upstream gradient through it contributes
the zero gradient to the root membrane, whereas `fire`'s output propagates
the upstream gradient through the registered backward rule. -/
theorem C6_mem_reset_detached (θ : ℚ) (mem : List ℚ) :
    (LIF.mem_reset θ mem).vals = (LIF.fireAD θ mem).vals ∧
      (LIF.mem_reset θ mem).vals = LIF.fire θ mem ∧
      (∀ g, (LIF.mem_reset θ mem).pullback g = List.replicate mem.length 0) ∧
      (∀ g, (LIF.fireAD θ mem).pullback g
          = heavisideBackward ((LIF.fireAD θ mem).vals) g) :=
  ⟨rfl, rfl, fun _ => rfl, fun _ => rfl⟩

/-- C9. The three neuron-level operations `fire`, `fire_inhibition` and
`mem_reset` leave the neuron's parameters (beta and threshold), the instance
registry, and every pre-existing tensor — in particular the input membrane —
unchanged: their only effect is the freshly allocated output tensor. -/
theorem C9_neuron_ops_frame (st : Store) (p : LIFState) (bs memAddr a : Nat)
    (ha : a < st.heap.length) :
    (LIF.fireS st p memAddr).2.1 = p ∧
      (LIF.fireS st p memAddr).1.get a = st.get a ∧
      (LIF.memResetS st p memAddr).2.1 = p ∧
      (LIF.memResetS st p memAddr).1.get a = st.get a ∧
      (LIF.fireInhibitionS st p bs memAddr).2.1 = p ∧
      (LIF.fireInhibitionS st p bs memAddr).1.get a = st.get a := by
  refine ⟨rfl, ?_, rfl, ?_, rfl, ?_⟩ <;> exact Store.get_alloc_of_lt _ _ _ ha

/-- Witness for C9: a one-tensor heap; the membrane at address 0 and the
parameters survive all three calls. -/
theorem C9_neuron_ops_frame_witness :
    (LIF.fireS ⟨[tensorRef]⟩ ⟨tensorOne, 1, []⟩ 0).2.1 = ⟨tensorOne, 1, []⟩ ∧
      (LIF.fireS ⟨[tensorRef]⟩ ⟨tensorOne, 1, []⟩ 0).1.get 0
        = (Store.mk [tensorRef]).get 0 ∧
      (LIF.memResetS ⟨[tensorRef]⟩ ⟨tensorOne, 1, []⟩ 0).2.1
        = ⟨tensorOne, 1, []⟩ ∧
      (LIF.memResetS ⟨[tensorRef]⟩ ⟨tensorOne, 1, []⟩ 0).1.get 0
        = (Store.mk [tensorRef]).get 0 ∧
      (LIF.fireInhibitionS ⟨[tensorRef]⟩ ⟨tensorOne, 1, []⟩ 2 0).2.1
        = ⟨tensorOne, 1, []⟩ ∧
      (LIF.fireInhibitionS ⟨[tensorRef]⟩ ⟨tensorOne, 1, []⟩ 2 0).1.get 0
        = (Store.mk [tensorRef]).get 0 :=
  C9_neuron_ops_frame ⟨[tensorRef]⟩ ⟨tensorOne, 1, []⟩ 2 0 0 (by norm_num)

/-- Helper: `getD` after `set` at the written index (valid index). -/
theorem getD_set_self_of_lt {α : Type} (l : List α) (i : Nat) (v d : α)
    (h : i < l.length) : (l.set i v).getD i d = v := by
  rw [List.getD_eq_getElem _ _ (by simpa using h)]
  simp

/-- Helper: `getD` after `set` at any other index. -/
theorem getD_set_of_ne {α : Type} (l : List α) (i j : Nat) (v d : α)
    (h : i ≠ j) : (l.set i v).getD j d = l.getD j d := by
  rw [List.getD_eq_getD_get?, List.getD_eq_getD_get?,
    List.get?_eq_getElem?, List.get?_eq_getElem?, List.getElem?_set_ne h]

/-- Helper: every element is bounded by `listMax`. -/
theorem le_listMax (xs : List ℚ) : ∀ v ∈ xs, v ≤ listMax xs := by
  induction xs with
  | nil => simp
  | cons x ys ih =>
      intro v hv
      cases ys with
      | nil =>
          rw [List.mem_singleton] at hv
          subst hv
          exact le_refl _
      | cons y zs =>
          rcases List.mem_cons.mp hv with h | h
          · subst h
            exact le_max_left _ _
          · exact le_trans (ih v h) (le_max_right _ _)

/-- Helper: the value at `argmaxIdx` is the maximum of the list. -/
theorem getD_argmaxIdx (xs : List ℚ) (h : xs ≠ []) :
    xs.getD (argmaxIdx xs) 0 = listMax xs := by
  induction xs with
  | nil => exact absurd rfl h
  | cons x ys ih =>
      cases ys with
      | nil => rfl
      | cons y zs =>
          rw [argmaxIdx]
          by_cases hle : listMax (y :: zs) ≤ x
          · rw [if_neg (by simp), if_pos hle]
            show x = listMax (x :: y :: zs)
            rw [listMax, max_eq_left hle]
          · rw [if_neg (by simp), if_neg hle]
            show (y :: zs).getD (argmaxIdx (y :: zs)) 0 = listMax (x :: y :: zs)
            rw [ih (by simp), listMax,
              max_eq_right (le_of_lt (lt_of_not_le hle))]

/-- Helper: on a non-empty list, `argmaxIdx` is a valid index. -/
theorem argmaxIdx_lt_length (xs : List ℚ) (h : xs ≠ []) :
    argmaxIdx xs < xs.length := by
  induction xs with
  | nil => exact absurd rfl h
  | cons x ys ih =>
      cases ys with
      | nil => simp [argmaxIdx]
      | cons y zs =>
          rw [argmaxIdx]
          by_cases hle : listMax (y :: zs) ≤ x
          · rw [if_neg (by simp), if_pos hle]
            simp
          · rw [if_neg (by simp), if_neg hle]
            have := ih (by simp)
            simpa using Nat.succ_lt_succ this

/-- Helper: `argmaxIdx` picks the FIRST occurrence of the maximum — every
earlier entry is strictly smaller. -/
theorem getD_lt_of_lt_argmaxIdx (xs : List ℚ) :
    ∀ j, j < argmaxIdx xs → xs.getD j 0 < xs.getD (argmaxIdx xs) 0 := by
  induction xs with
  | nil => intro j hj; simp [argmaxIdx] at hj
  | cons x ys ih =>
      intro j hj
      cases ys with
      | nil => simp [argmaxIdx] at hj
      | cons y zs =>
          rw [argmaxIdx] at hj ⊢
          by_cases hle : listMax (y :: zs) ≤ x
          · rw [if_neg (by simp), if_pos hle] at hj
            exact absurd hj (Nat.not_lt_zero _)
          · rw [if_neg (by simp), if_neg hle] at hj ⊢
            cases j with
            | zero =>
                show x < (y :: zs).getD (argmaxIdx (y :: zs)) 0
                rw [getD_argmaxIdx (y :: zs) (by simp)]
                exact lt_of_not_le hle
            | succ n =>
                show (y :: zs).getD n 0 < (y :: zs).getD (argmaxIdx (y :: zs)) 0
                exact ih n (by omega)

/-- Helper: `argmaxIdx` attains the maximum over all valid indices. -/
theorem getD_le_argmaxIdx (xs : List ℚ) (h : xs ≠ []) :
    ∀ j, j < xs.length → xs.getD j 0 ≤ xs.getD (argmaxIdx xs) 0 := by
  intro j hj
  rw [getD_argmaxIdx xs h]
  refine le_listMax xs _ ?_
  rw [List.getD_eq_getElem _ _ hj]
  exact List.getElem_mem hj

/-- Helper: `setEntry` preserves the number of rows. -/
theorem setEntry_length (m : List (List ℚ)) (i j : Nat) (v : ℚ) :
    (setEntry m i j v).length = m.length := by
  simp [setEntry]

/-- Helper: `setEntry` leaves every other row unchanged. -/
theorem setEntry_getD_of_ne (m : List (List ℚ)) (i j k : Nat) (v : ℚ)
    (h : i ≠ k) : (setEntry m i j v).getD k [] = m.getD k [] :=
  getD_set_of_ne _ _ _ _ _ h

/-- Helper: `setEntry` replaces the addressed row by its updated copy (a
no-op beyond the matrix bounds, where both sides are `[]`). -/
theorem setEntry_getD_self (m : List (List ℚ)) (i j : Nat) (v : ℚ) :
    (setEntry m i j v).getD i [] = (m.getD i []).set j v := by
  unfold setEntry
  rcases Nat.lt_or_ge i m.length with hi | hi
  · exact getD_set_self_of_lt _ _ _ _ hi
  · rw [List.set_eq_of_length_le hi, List.getD_eq_default _ _ hi]
    simp

/-- Helper: the scatter loop preserves the number of rows. -/
theorem foldl_setEntry_length (f : Nat → Nat) (l : List Nat) :
    ∀ m : List (List ℚ),
      (l.foldl (fun mk r => setEntry mk r (f r) 1) m).length = m.length := by
  induction l with
  | nil => intro m; rfl
  | cons a l ih =>
      intro m
      rw [List.foldl_cons, ih, setEntry_length]

/-- Helper: the scatter `mask[i, f(i)] = 1` over a duplicate-free list of row
indices makes row `i` the addressed update of its initial value when `i` is
among the rows, and leaves it unchanged otherwise. -/
theorem foldl_setEntry_getD (f : Nat → Nat) :
    ∀ l : List Nat, l.Nodup → ∀ (m : List (List ℚ)) (i : Nat),
      (l.foldl (fun mk r => setEntry mk r (f r) 1) m).getD i []
        = if i ∈ l then (m.getD i []).set (f i) 1 else m.getD i [] := by
  intro l
  induction l with
  | nil => intro _ m i; simp
  | cons a l ih =>
      intro hnd m i
      obtain ⟨hna, hnd2⟩ := List.nodup_cons.mp hnd
      rw [List.foldl_cons, ih hnd2 _ i]
      by_cases hia : i = a
      · subst hia
        rw [if_neg (fun hh => hna hh), if_pos (List.mem_cons_self _ _),
          setEntry_getD_self]
      · rw [setEntry_getD_of_ne _ _ _ _ _ (fun hh => hia hh.symm)]
        by_cases hin : i ∈ l
        · rw [if_pos hin, if_pos (List.mem_cons.mpr (Or.inr hin))]
        · rw [if_neg hin, if_neg (by simp [hia, hin])]

/-- Helper: row `i` of `fire_inhibition` (with `batch_size` equal to the
number of rows) is the elementwise product of the tentative spike row and the
all-zero row with a 1 scattered at the row's argmax index. -/
theorem fire_inhibition_row (θ : ℚ) (mem : List (List ℚ)) (i : Nat)
    (hi : i < mem.length) :
    (LIF.fire_inhibition θ mem.length mem).getD i []
      = List.zipWith (fun a b => a * b)
          (((mem.getD i []).map (fun v => v - θ)).map heavisideStep)
          (((((mem.getD i []).map (fun v => v - θ)).map heavisideStep).map
              (fun _ => (0 : ℚ))).set
            (argmaxIdx ((mem.getD i []).map (fun v => v - θ))) 1) := by
  have hshift : (mem.map (fun row => row.map (fun v => v - θ))).getD i []
      = (mem.getD i []).map (fun v => v - θ) :=
    getD_map_of_lt _ mem i [] [] hi
  have hmlen : i < (mem.map (fun row => row.map (fun v => v - θ))).length := by
    simpa using hi
  have hspk : ((mem.map (fun row => row.map (fun v => v - θ))).map
        (fun row => (heavisideForward row).2)).getD i []
      = ((mem.getD i []).map (fun v => v - θ)).map heavisideStep := by
    rw [getD_map_of_lt _ _ i [] [] hmlen, hshift]
    rfl
  have hslen : i < ((mem.map (fun row => row.map (fun v => v - θ))).map
      (fun row => (heavisideForward row).2)).length := by simpa using hi
  have hidx : ((mem.map (fun row => row.map (fun v => v - θ))).map
        argmaxIdx).getD i 0
      = argmaxIdx ((mem.getD i []).map (fun v => v - θ)) := by
    rw [getD_map_of_lt _ _ i 0 [] hmlen, hshift]
  have hmask0 : (((mem.map (fun row => row.map (fun v => v - θ))).map
        (fun row => (heavisideForward row).2)).map
          (fun row => row.map (fun _ => (0 : ℚ)))).getD i []
      = (((mem.getD i []).map (fun v => v - θ)).map heavisideStep).map
          (fun _ => (0 : ℚ)) := by
    rw [getD_map_of_lt _ _ i [] [] hslen, hspk]
  have hmlen2 : i < ((List.range mem.length).foldl
      (fun mk r => setEntry mk r
        (((mem.map (fun row => row.map (fun v => v - θ))).map
            argmaxIdx).getD r 0) 1)
      (((mem.map (fun row => row.map (fun v => v - θ))).map
          (fun row => (heavisideForward row).2)).map
        (fun row => row.map (fun _ => (0 : ℚ))))).length := by
    rw [foldl_setEntry_length]
    simpa using hi
  unfold LIF.fire_inhibition
  dsimp only
  rw [getD_zipWith_of_lt _ _ _ i [] [] [] hslen hmlen2]
  rw [foldl_setEntry_getD _ (List.range mem.length) (List.nodup_range _) _ i,
    if_pos (List.mem_range.mpr hi)]
  rw [hspk, hmask0, hidx]

/-- Helper: `fire_inhibition` has as many rows as the membrane. -/
theorem fire_inhibition_len (θ : ℚ) (mem : List (List ℚ)) :
    (LIF.fire_inhibition θ mem.length mem).length = mem.length := by
  unfold LIF.fire_inhibition
  dsimp only
  rw [List.length_zipWith, foldl_setEntry_length]
  simp

/-- Helper: each row of `fire_inhibition` has the row's original length. -/
theorem fire_inhibition_row_len (θ : ℚ) (mem : List (List ℚ)) (i : Nat)
    (hi : i < mem.length) :
    ((LIF.fire_inhibition θ mem.length mem).getD i []).length
      = (mem.getD i []).length := by
  rw [fire_inhibition_row θ mem i hi]
  simp

/-- Helper: entry `(i, j)` of `fire_inhibition` is the step output at the
row's argmax index and 0 everywhere else. -/
theorem fire_inhibition_entry (θ : ℚ) (mem : List (List ℚ)) (i : Nat)
    (hi : i < mem.length) (j : Nat) (hj : j < (mem.getD i []).length) :
    ((LIF.fire_inhibition θ mem.length mem).getD i []).getD j 0
      = if j = argmaxIdx ((mem.getD i []).map (fun v => v - θ))
        then heavisideStep (((mem.getD i []).map (fun v => v - θ)).getD j 0)
        else 0 := by
  rw [fire_inhibition_row θ mem i hi]
  have hl1 : j <
      (((mem.getD i []).map (fun v => v - θ)).map heavisideStep).length := by
    simpa using hj
  have hl2 : j <
      ((((((mem.getD i []).map (fun v => v - θ)).map heavisideStep).map
          (fun _ => (0 : ℚ))).set
        (argmaxIdx ((mem.getD i []).map (fun v => v - θ))) 1)).length := by
    simpa using hj
  rw [getD_zipWith_of_lt _ _ _ j 0 0 0 hl1 hl2]
  by_cases hjk : j = argmaxIdx ((mem.getD i []).map (fun v => v - θ))
  · rw [if_pos hjk, ← hjk,
      getD_set_self_of_lt _ _ _ _ (by simpa using hj), mul_one]
    exact getD_map_of_lt heavisideStep _ j 0 0 (by simpa using hj)
  · rw [if_neg hjk, getD_set_of_ne _ _ _ _ _ (fun hh => hjk hh.symm),
      getD_map_of_lt _ _ j 0 0 hl1]
    simp

/-- C4. On a `(batch_size, units)` membrane with `batch_size` its first
dimension, `fire_inhibition` preserves the shape and, in every sample row,
zeroes every position except the argmax index of `membrane − threshold` for
that row — an index that attains the row's maximum shifted value with
first-occurrence tie-breaking — where the output equals the step function's
value; a row whose maximal shifted value does not fire under the step rule
is therefore all zero. -/
theorem C4_fire_inhibition_winner_take_all (θ : ℚ) (units : Nat)
    (mem : List (List ℚ)) (bs : Nat) (hbs : bs = mem.length)
    (hrow : ∀ row ∈ mem, row.length = units) (hu : 0 < units)
    (i : Nat) (hi : i < mem.length)
    (shift : List ℚ) (hshift : shift = (mem.getD i []).map (fun v => v - θ))
    (k : Nat) (hk : k = argmaxIdx shift) :
    (LIF.fire_inhibition θ bs mem).length = mem.length ∧
      ((LIF.fire_inhibition θ bs mem).getD i []).length = units ∧
      k < units ∧
      (∀ j, j < units → shift.getD j 0 ≤ shift.getD k 0) ∧
      (∀ j, j < k → shift.getD j 0 < shift.getD k 0) ∧
      ((LIF.fire_inhibition θ bs mem).getD i []).getD k 0
          = heavisideStep (shift.getD k 0) ∧
      (∀ j, j < units → j ≠ k →
          ((LIF.fire_inhibition θ bs mem).getD i []).getD j 0 = 0) ∧
      (heavisideStep (shift.getD k 0) = 0 →
          ∀ j, j < units →
            ((LIF.fire_inhibition θ bs mem).getD i []).getD j 0 = 0) := by
  subst hbs
  subst hshift
  subst hk
  have hrowlen : (mem.getD i []).length = units := by
    refine hrow _ ?_
    rw [List.getD_eq_getElem _ _ hi]
    exact List.getElem_mem hi
  have hslen : ((mem.getD i []).map (fun v => v - θ)).length = units := by
    simpa using hrowlen
  have hne : (mem.getD i []).map (fun v => v - θ) ≠ [] := by
    intro hnil
    rw [hnil] at hslen
    simp at hslen
    omega
  have hklt : argmaxIdx ((mem.getD i []).map (fun v => v - θ)) < units := by
    have := argmaxIdx_lt_length _ hne
    omega
  have hkrow : argmaxIdx ((mem.getD i []).map (fun v => v - θ))
      < (mem.getD i []).length := by omega
  refine ⟨fire_inhibition_len θ mem, ?_, hklt, ?_, ?_, ?_, ?_, ?_⟩
  · rw [fire_inhibition_row_len θ mem i hi, hrowlen]
  · intro j hj
    exact getD_le_argmaxIdx _ hne j (by omega)
  · intro j hj
    exact getD_lt_of_lt_argmaxIdx _ j hj
  · rw [fire_inhibition_entry θ mem i hi _ hkrow, if_pos rfl]
  · intro j hj hjk
    rw [fire_inhibition_entry θ mem i hi j (by omega), if_neg hjk]
  · intro hzero j hj
    by_cases hjk : j = argmaxIdx ((mem.getD i []).map (fun v => v - θ))
    · rw [fire_inhibition_entry θ mem i hi j (by omega), if_pos hjk, hjk]
      exact hzero
    · rw [fire_inhibition_entry θ mem i hi j (by omega), if_neg hjk]

/-- Witness for C4 at the spec's concrete batch: membrane
`[[0.1, 0.9, -0.2], [-1, -1, -1]]`, threshold 0, batch of 2, 3 units,
row 0, argmax index 1: the output there equals the step value. -/
theorem C4_fire_inhibition_winner_take_all_witness :
    ((LIF.fire_inhibition 0 2
          [[(1 : ℚ)/10, 9/10, -(1 : ℚ)/5], [-1, -1, -1]]).getD 0 []).getD 1 0
      = heavisideStep (([(1 : ℚ)/10, 9/10, -(1 : ℚ)/5]).getD 1 0) :=
  (C4_fire_inhibition_winner_take_all 0 3
      [[(1 : ℚ)/10, 9/10, -(1 : ℚ)/5], [-1, -1, -1]] 2 rfl
      (by intro row hr; fin_cases hr <;> rfl) (by norm_num)
      0 (by norm_num)
      [(1 : ℚ)/10, 9/10, -(1 : ℚ)/5] (by norm_num)
      1 (by norm_num [argmaxIdx, listMax]; simp)).2.2.2.2.2.1

end SnnTorch
